import Mathlib

/-!
Verification of the qx trading-signal core (strategy.py / backtest.py).

The Python code is shallowly embedded: floats are modelled as rationals,
Python dicts as structures (an optional field models a key that only some
code paths insert), and Python `round` (banker's rounding) as `pyRound`.
-/

namespace QX

/-- Python `round(q, n)` helper: round to the nearest integer, ties to even,
as CPython does. -/
def roundHalfEven (q : ℚ) : ℤ :=
  let f := ⌊q⌋
  let r := q - f
  if r < 1/2 then f
  else if r > 1/2 then f + 1
  else if f % 2 = 0 then f else f + 1

/-- Python `round(q, n)`: round to `n` decimal places, ties to even. -/
def pyRound (q : ℚ) (n : ℕ) : ℚ :=
  (roundHalfEven (q * 10 ^ n) : ℚ) / 10 ^ n

/-- A candle dict as produced by the client: OHLC data, timestamp, volume.
The `open` key is a Lean keyword, hence the field name `open_`. -/
structure Candle where
  timestamp : ℤ
  open_ : ℚ
  high : ℚ
  low : ℚ
  close : ℚ
  volume : ℤ
deriving DecidableEq, Inhabited

/-- Python `l[-n:]`: the last `n` elements (the whole list when shorter). -/
def takeLast (n : ℕ) (l : List α) : List α :=
  l.drop (l.length - n)

/-- Candle colour classification from `TradingStrategy.detect_pattern`:
green if close > open, red if close < open, else neutral (doji). -/
def candleColor (c : Candle) : String :=
  if c.close > c.open_ then "green"
  else if c.close < c.open_ then "red"
  else "neutral"

/-- Per-candle confidence from `TradingStrategy._calculate_confidence`:
body-to-wick ratio capped at 100, defaulting to 50 when the wick size
`high - low` is not positive. -/
def candleConfidence (c : Candle) : ℚ :=
  let body_size := |c.close - c.open_|
  let wick_size := c.high - c.low
  if wick_size > 0 then min (body_size / wick_size * 100) 100
  else 50

/-- The average per-candle confidence (the accumulator `total_confidence`
divided by `len(candles)` in `_calculate_confidence`). -/
def averageConfidence (candles : List Candle) : ℚ :=
  (candles.map candleConfidence).sum / candles.length

/-- `TradingStrategy._calculate_confidence`: average the per-candle scores,
boost by 10 percent (capped at 100) when the average exceeds 70, and round
to one decimal. Returns 0 on an empty window. -/
def calculate_confidence (candles : List Candle) : ℚ :=
  if candles = [] then 0
  else
    let average_confidence := averageConfidence candles
    let boosted :=
      if average_confidence > 70 then min (average_confidence * (11/10)) 100
      else average_confidence
    pyRound boosted 1

/-- Return value of `detect_pattern`: the tuple
`(pattern_detected, pattern_type, confidence)`. -/
structure PatternResult where
  detected : Bool
  pattern_type : Option String
  confidence : ℚ
deriving DecidableEq

/-- `TradingStrategy.detect_pattern`: on a window of at least 5 candles,
classify the colours of the last five; when `len(set(colors)) == 1` and the
shared colour is not neutral, report the pattern `"5_" + colour` with its
confidence score. -/
def detect_pattern (candles : List Candle) : PatternResult :=
  if candles.length < 5 then ⟨false, none, 0⟩
  else
    let last_5_candles := takeLast 5 candles
    let colors := last_5_candles.map candleColor
    if colors.dedup.length = 1 ∧ colors.headI ≠ "neutral" then
      ⟨true, some ("5_" ++ colors.headI), calculate_confidence last_5_candles⟩
    else ⟨false, none, 0⟩

/-- `TradingStrategy.get_trade_direction`: `5_green ↦ put`, `5_red ↦ call`,
anything else defaults to `call`. -/
def get_trade_direction (pattern_type : String) : String :=
  if pattern_type = "5_green" then "put"
  else if pattern_type = "5_red" then "call"
  else "call"

/-- `TradingStrategy.get_optimal_trade_amount`: half-Kelly sizing capped by
the risk percentage, floored at a minimum stake of 1 and capped at the
balance; 0 when balance or win rate is non-positive. -/
def get_optimal_trade_amount (balance win_rate : ℚ)
    (risk_percentage : ℚ := 2) : ℚ :=
  if balance ≤ 0 ∨ win_rate ≤ 0 then 0
  else
    let p := win_rate / 100
    let b : ℚ := 8/10
    let q := 1 - p
    let kelly_fraction := (b * p - q) / b
    let conservative_fraction := kelly_fraction * (1/2)
    let max_risk_amount := balance * (risk_percentage / 100)
    let kelly_amount := balance * max conservative_fraction 0
    let recommended_amount := min kelly_amount max_risk_amount
    let floored := max (pyRound recommended_amount 2) 1
    min floored balance

/-- The dict returned by `analyze_market_condition`. `atr` is optional
because the insufficient-data early return builds a dict without that
key. -/
structure MarketCondition where
  trend : String
  volatility : String
  strength : ℚ
  atr : Option ℚ
deriving DecidableEq

/-- The `true_range` column of `analyze_market_condition`: for the first
row the shifted closes are NaN, so the row-wise max reduces to
`high - low`; from the second row on it is
`max(high - low, |high - prev_close|, |low - prev_close|)`. -/
def trueRanges : List Candle → List ℚ
  | [] => []
  | c :: rest =>
    (c.high - c.low) ::
      List.zipWith
        (fun prev cur =>
          max (cur.high - cur.low)
            (max |cur.high - prev.close| |cur.low - prev.close|))
        (c :: rest) rest

/-- Mean of a list of rationals (`np.mean`; `sum/len` patterns). -/
def mean (l : List ℚ) : ℚ := l.sum / l.length

/-- `TradingStrategy.analyze_market_condition`: on fewer than 20 candles,
the unknown/0 early return (whose dict has no `atr` key); otherwise trend
from the trailing SMA5/SMA20, volatility from the trailing 14-candle ATR,
and strength as the capped percentage change of the last close against
`close.iloc[-20]` (the 20th close from the end). -/
def analyze_market_condition (candles : List Candle) : MarketCondition :=
  if candles.length < 20 then ⟨"unknown", "unknown", 0, none⟩
  else
    let closes := candles.map Candle.close
    let sma_5 := mean (takeLast 5 closes)
    let sma_20 := mean (takeLast 20 closes)
    let trend :=
      if sma_20 < sma_5 then "bullish"
      else if sma_5 < sma_20 then "bearish"
      else "sideways"
    let atr := mean (takeLast 14 (trueRanges candles))
    let last_close := closes.getD (closes.length - 1) 0
    let volatility :=
      if last_close * (2/1000) < atr then "high"
      else if last_close * (1/1000) < atr then "medium"
      else "low"
    let ref_close := closes.getD (closes.length - 20) 0
    let price_change := (last_close - ref_close) / ref_close
    let strength := min (|price_change| * 100) 100
    ⟨trend, volatility, pyRound strength 1, some (pyRound atr 6)⟩

/-- The dict appended to `trades` inside `BacktestEngine.run_backtest`. -/
structure TradeRecord where
  timestamp : ℤ
  pattern : String
  direction : String
  amount : ℚ
  confidence : ℚ
  win : Bool
  profit_loss : ℚ
  balance : ℚ
  entry_price : ℚ
  exit_price : ℚ
deriving DecidableEq

/-- The mutable loop state of `run_backtest`: running balance, peak balance,
maximum drawdown (as a fraction) and the trade list. -/
structure BTState where
  balance : ℚ
  peak_balance : ℚ
  max_drawdown : ℚ
  trades : List TradeRecord
deriving DecidableEq

/-- The exact Sharpe value `avg/std` involves a square root, which is not a
rational; the simulator's result therefore carries it symbolically:
`ofAvgVar avg var` denotes `avg / sqrt var` (with `var > 0`), and `zero`
covers both guarded zero cases (no trades, or zero standard deviation). -/
inductive Sharpe where
  | zero : Sharpe
  | ofAvgVar (avg var : ℚ) : Sharpe
deriving DecidableEq

/-- The result dict of `run_backtest`. `final_balance` is optional because
the insufficient-data early return builds a dict without that key. The
`sharpe` field embeds the `sharpe_ratio` key (see `Sharpe`); the Python
code additionally rounds it to 3 decimals, which is irrelevant for the
two values this development inspects (both zero). -/
structure BacktestResult where
  total_trades : ℕ
  winning_trades : ℕ
  losing_trades : ℕ
  win_rate : ℚ
  profit_loss : ℚ
  max_drawdown : ℚ
  sharpe : Sharpe
  final_balance : Option ℚ
  details : List TradeRecord
deriving DecidableEq

/-- One iteration of the walk in `run_backtest`, at index `i` of
`test_candles`: detect the pattern on the last five candles of
`test_candles[:i+1]`; on a qualifying signal (pattern detected, truthy
pattern type, confidence at least 60), with sufficient balance for the
fixed 50.0 stake and a successor candle in-window, settle the trade on the
next close, update balance, peak, drawdown, and append a trade record. -/
def backtestStep (test_candles : List Candle) (st : BTState) (i : ℕ) :
    BTState :=
  let current_candles := test_candles.take (i + 1)
  let pr := detect_pattern (takeLast 5 current_candles)
  if pr.detected = true ∧ pr.pattern_type.getD "" ≠ "" ∧ 60 ≤ pr.confidence
  then
    let trade_amount : ℚ := 50
    if trade_amount ≤ st.balance then
      let direction := get_trade_direction (pr.pattern_type.getD "")
      if i < test_candles.length - 1 then
        let next_candle := test_candles.getD (i + 1) default
        let current_candle := test_candles.getD i default
        let win : Bool :=
          if direction = "call" then
            decide (current_candle.close < next_candle.close)
          else
            decide (next_candle.close < current_candle.close)
        let payout := trade_amount * (8/10)
        let balance :=
          if win then st.balance + payout else st.balance - trade_amount
        let profit_loss := if win then payout else -trade_amount
        let peak_balance :=
          if st.peak_balance < balance then balance else st.peak_balance
        let current_drawdown := (peak_balance - balance) / peak_balance
        let max_drawdown :=
          if st.max_drawdown < current_drawdown then current_drawdown
          else st.max_drawdown
        let record : TradeRecord :=
          { timestamp := current_candle.timestamp
            pattern := pr.pattern_type.getD ""
            direction := direction
            amount := trade_amount
            confidence := pr.confidence
            win := win
            profit_loss := profit_loss
            balance := balance
            entry_price := current_candle.close
            exit_price := next_candle.close }
        ⟨balance, peak_balance, max_drawdown, st.trades ++ [record]⟩
      else st
    else st
  else st

/-- `BacktestEngine.run_backtest`: the zeroed early return on insufficient
data (whose dict has no `final_balance` key), otherwise the walk over
`range(5, len(test_candles))` on the trailing `lookback_period` candles
followed by the statistics block. -/
def run_backtest (candles : List Candle) (lookback_period : ℕ := 100) :
    BacktestResult :=
  if candles.length < lookback_period then
    ⟨0, 0, 0, 0, 0, 0, Sharpe.zero, none, []⟩
  else
    let test_candles := takeLast lookback_period candles
    let initial_balance : ℚ := 10000
    let final_state :=
      (List.range' 5 (test_candles.length - 5)).foldl
        (backtestStep test_candles) ⟨initial_balance, initial_balance, 0, []⟩
    let trades := final_state.trades
    let total_trades := trades.length
    let winning_trades := (trades.filter (fun t => t.win)).length
    let losing_trades := total_trades - winning_trades
    let win_rate :=
      if 0 < total_trades then
        (winning_trades : ℚ) / total_trades * 100
      else 0
    let total_profit_loss := final_state.balance - initial_balance
    let sharpe :=
      if trades = [] then Sharpe.zero
      else
        let returns := trades.map (fun t => t.profit_loss / t.amount)
        let avg_return := mean returns
        let var_return := mean (returns.map (fun r => (r - avg_return) ^ 2))
        if 0 < var_return then Sharpe.ofAvgVar avg_return var_return
        else Sharpe.zero
    { total_trades := total_trades
      winning_trades := winning_trades
      losing_trades := losing_trades
      win_rate := pyRound win_rate 2
      profit_loss := pyRound total_profit_loss 2
      max_drawdown := pyRound (final_state.max_drawdown * 100) 2
      sharpe := sharpe
      final_balance := some (pyRound final_state.balance 2)
      details := takeLast 10 trades }

/-- Loop body of `BacktestEngine._backtest_with_confidence`: the accumulator
is the pair `(trades_count, wins)`. -/
def bwcStep (candles : List Candle) (confidence_threshold : ℚ)
    (acc : ℕ × ℕ) (i : ℕ) : ℕ × ℕ :=
  let current_candles := candles.take (i + 1)
  let pr := detect_pattern (takeLast 5 current_candles)
  if pr.detected = true ∧ pr.pattern_type.getD "" ≠ "" ∧
      confidence_threshold ≤ pr.confidence then
    let next_candle := candles.getD (i + 1) default
    let current_candle := candles.getD i default
    let direction := get_trade_direction (pr.pattern_type.getD "")
    let win : Bool :=
      if direction = "call" then
        decide (current_candle.close < next_candle.close)
      else
        decide (next_candle.close < current_candle.close)
    (acc.1 + 1, acc.2 + if win then 1 else 0)
  else acc

/-- Result dict of `_backtest_with_confidence`. -/
structure ConfStats where
  total_trades : ℕ
  winning_trades : ℕ
  win_rate : ℚ
deriving DecidableEq

/-- `BacktestEngine._backtest_with_confidence`: count trades and wins over
`range(5, len(candles) - 1)` gated at the given confidence threshold. -/
def backtest_with_confidence (candles : List Candle)
    (confidence_threshold : ℚ) : ConfStats :=
  let counts :=
    (List.range' 5 (candles.length - 1 - 5)).foldl
      (bwcStep candles confidence_threshold) (0, 0)
  let win_rate :=
    if 0 < counts.1 then (counts.2 : ℚ) / counts.1 * 100 else 0
  ⟨counts.1, counts.2, pyRound win_rate 2⟩

/-- The candidate confidence thresholds swept by `optimize_parameters`. -/
def confidence_thresholds : List ℚ := [50, 60, 70, 80]

/-- The `best_params` dict built by `optimize_parameters`. -/
structure OptParams where
  confidence_threshold : ℚ
  expected_win_rate : ℚ
  total_trades : ℕ
deriving DecidableEq

/-- One iteration of the sweep in `optimize_parameters`: the state is
`(best_performance, best_params)`, where `best_params = none` models the
initial empty dict; the incumbent is replaced only on a strictly greater
win rate. -/
def optimizeStep (candles : List Candle) (st : ℚ × Option OptParams)
    (confidence_threshold : ℚ) : ℚ × Option OptParams :=
  let modified_results := backtest_with_confidence candles confidence_threshold
  if st.1 < modified_results.win_rate then
    (modified_results.win_rate,
      some ⟨confidence_threshold, modified_results.win_rate,
        modified_results.total_trades⟩)
  else st

/-- `BacktestEngine.optimize_parameters`: sweep the candidate thresholds in
ascending order starting from `best_performance = 0.0` and an empty
`best_params`. -/
def optimize_parameters (candles : List Candle) : Option OptParams :=
  (confidence_thresholds.foldl (optimizeStep candles) (0, none)).2

/-! Concrete candle series used as test inputs for the theorems below. -/

/-- The five-candle example from `strategy.py`'s main block: five green
candles with body 0.0010 and wick 0.0020 each. -/
def sample_candles : List Candle := [
  ⟨1000, 12000/10000, 12015/10000, 11995/10000, 12010/10000, 0⟩,
  ⟨1060, 12010/10000, 12025/10000, 12005/10000, 12020/10000, 0⟩,
  ⟨1120, 12020/10000, 12035/10000, 12015/10000, 12030/10000, 0⟩,
  ⟨1180, 12030/10000, 12045/10000, 12025/10000, 12040/10000, 0⟩,
  ⟨1240, 12040/10000, 12055/10000, 12035/10000, 12050/10000, 0⟩]

/-- A seven-candle series: six full-body green candles followed by a lower
close, so the walk's single index (i = 5) produces a confident `5_green`
signal whose put trade wins. -/
def reversal_candles : List Candle :=
  [⟨0, 1, 2, 1, 2, 0⟩, ⟨60, 1, 2, 1, 2, 0⟩, ⟨120, 1, 2, 1, 2, 0⟩,
   ⟨180, 1, 2, 1, 2, 0⟩, ⟨240, 1, 2, 1, 2, 0⟩, ⟨300, 1, 2, 1, 2, 0⟩,
   ⟨360, 2, 2, 1, 1, 0⟩]

/-- A doji candle whose four prices all equal the given value. -/
def flatCandle (ts : ℤ) (price : ℚ) : Candle := ⟨ts, price, price, price, price, 0⟩

/-- A 21-candle flat series with closes 100, 200, 300, 300, ..., 300: the
close 19 positions before the last is 200, while the close 20 positions
before the last is 100, so the two readings of "strength" differ. -/
def step_candles : List Candle :=
  [flatCandle 0 100, flatCandle 60 200, flatCandle 120 300, flatCandle 180 300,
   flatCandle 240 300, flatCandle 300 300, flatCandle 360 300, flatCandle 420 300,
   flatCandle 480 300, flatCandle 540 300, flatCandle 600 300, flatCandle 660 300,
   flatCandle 720 300, flatCandle 780 300, flatCandle 840 300, flatCandle 900 300,
   flatCandle 960 300, flatCandle 1020 300, flatCandle 1080 300, flatCandle 1140 300,
   flatCandle 1200 300]

/-- Five malformed candles (each with high < low) that nonetheless form a
uniform green window. -/
def malformed_window : List Candle :=
  [⟨0, 1, 0, 3, 2, -1⟩, ⟨60, 1, 0, 3, 2, -1⟩, ⟨120, 1, 0, 3, 2, -1⟩,
   ⟨180, 1, 0, 3, 2, -1⟩, ⟨240, 1, 0, 3, 2, -1⟩]

/-- The invariant maintained by the walk of `run_backtest`: the balance is
non-negative and never above the peak, the peak is positive, and the
running maximum drawdown is a fraction in [0, 1]. -/
def BTInv (st : BTState) : Prop :=
  0 ≤ st.balance ∧ st.balance ≤ st.peak_balance ∧ 0 < st.peak_balance ∧
    0 ≤ st.max_drawdown ∧ st.max_drawdown ≤ 1

/-! Helper lemmas. -/

/-- Absolute value on rationals as a conditional, convenient for concrete
evaluation. -/
lemma abs_ite (q : ℚ) : |q| = if 0 ≤ q then q else -q := by
  split_ifs with h
  · exact abs_of_nonneg h
  · exact abs_of_neg (lt_of_not_le h)

lemma roundHalfEven_nonneg {q : ℚ} (h : 0 ≤ q) : 0 ≤ roundHalfEven q := by
  have hf : (0 : ℤ) ≤ ⌊q⌋ := Int.le_floor.mpr (by exact_mod_cast h)
  simp only [roundHalfEven]
  split_ifs <;> omega

lemma roundHalfEven_le {q : ℚ} {m : ℤ} (h : q ≤ m) : roundHalfEven q ≤ m := by
  have hf : ⌊q⌋ ≤ m := by
    have := Int.floor_mono h
    simpa using this
  have hfl : (⌊q⌋ : ℚ) ≤ q := Int.floor_le q
  simp only [roundHalfEven]
  split_ifs with h1 h2 h3
  · exact hf
  · have hlt : (⌊q⌋ : ℚ) < q := by linarith
    have : ⌊q⌋ < m := by exact_mod_cast lt_of_lt_of_le hlt h
    omega
  · exact hf
  · have hge : (1 : ℚ)/2 ≤ q - ⌊q⌋ := not_lt.mp h1
    have hlt : (⌊q⌋ : ℚ) < q := by linarith
    have : ⌊q⌋ < m := by exact_mod_cast lt_of_lt_of_le hlt h
    omega

lemma pyRound_nonneg {q : ℚ} (h : 0 ≤ q) (n : ℕ) : 0 ≤ pyRound q n := by
  simp only [pyRound]
  apply div_nonneg _ (by positivity)
  exact_mod_cast roundHalfEven_nonneg (by positivity)

lemma pyRound_le {q : ℚ} {m : ℤ} (h : q ≤ m) (n : ℕ) : pyRound q n ≤ m := by
  simp only [pyRound]
  rw [div_le_iff₀ (by positivity)]
  have h2 : q * 10 ^ n ≤ ((m * 10 ^ n : ℤ) : ℚ) := by
    push_cast
    exact mul_le_mul_of_nonneg_right h (by positivity)
  exact_mod_cast roundHalfEven_le h2

/-- The exact value behind claim C6's bounds. -/
lemma get_optimal_trade_amount_demo : get_optimal_trade_amount 1000 65 2 = 20 := by
  norm_num [get_optimal_trade_amount, pyRound, roundHalfEven, min_def, max_def]

/-- C6: `get_optimal_trade_amount` returns 0 whenever the balance or the
win rate is non-positive, and at balance 1000, win rate 65, risk 2% the
recommended amount is between 1 and 20 and never exceeds the balance. -/
theorem get_optimal_trade_amount_spec :
    (∀ balance win_rate risk_percentage : ℚ, balance ≤ 0 ∨ win_rate ≤ 0 →
      get_optimal_trade_amount balance win_rate risk_percentage = 0) ∧
    get_optimal_trade_amount 1000 65 2 ≤ 20 ∧
    1 ≤ get_optimal_trade_amount 1000 65 2 ∧
    get_optimal_trade_amount 1000 65 2 ≤ 1000 := by
  refine ⟨fun balance win_rate r h => ?_, ?_, ?_, ?_⟩
  · simp only [get_optimal_trade_amount]
    rw [if_pos h]
  all_goals rw [get_optimal_trade_amount_demo]
  all_goals norm_num

/-- Witness for C6 at balance 0. -/
theorem get_optimal_trade_amount_spec_witness :
    ((0 : ℚ) ≤ 0 ∨ (65 : ℚ) ≤ 0) ∧ get_optimal_trade_amount 0 65 2 = 0 :=
  ⟨Or.inl le_rfl, get_optimal_trade_amount_spec.1 0 65 2 (Or.inl le_rfl)⟩

/-- Python's `len(set(colors)) == 1` test on a non-empty list holds exactly
when all elements are equal. -/
lemma dedup_length_one_iff {l : List String} :
    l.dedup.length = 1 ↔ ∃ a, l ≠ [] ∧ ∀ x ∈ l, x = a := by
  constructor
  · intro h
    obtain ⟨a, ha⟩ := List.length_eq_one.mp h
    refine ⟨a, ?_, ?_⟩
    · intro hnil
      rw [hnil] at ha
      simp [List.dedup_nil] at ha
    · intro x hx
      have hxd : x ∈ l.dedup := List.mem_dedup.mpr hx
      rw [ha] at hxd
      simpa using hxd
  · rintro ⟨a, hne, hall⟩
    have hmem : a ∈ l := by
      cases l with
      | nil => exact absurd rfl hne
      | cons b t =>
        have hb := hall b (List.mem_cons_self b t)
        rw [← hb]
        exact List.mem_cons_self b t
    have hiff : ∀ x, x ∈ l.dedup ↔ x = a := by
      intro x
      rw [List.mem_dedup]
      exact ⟨hall x, fun hx => hx ▸ hmem⟩
    have hnd : l.dedup.Nodup := List.nodup_dedup l
    suffices hd : l.dedup = [a] by rw [hd]; rfl
    cases hdd : l.dedup with
    | nil =>
      exfalso
      have := (hiff a).mpr rfl
      rw [hdd] at this
      simp at this
    | cons b t =>
      have hb : b = a := (hiff b).mp (by rw [hdd]; exact List.mem_cons_self b t)
      have ht : t = [] := by
        cases t with
        | nil => rfl
        | cons c u =>
          exfalso
          have hc : c = a :=
            (hiff c).mp (by rw [hdd]; simp)
          rw [hdd, hb, hc] at hnd
          simp at hnd
      rw [hb, ht]

/-- The head of a non-empty all-equal list. -/
lemma headI_of_all_eq {l : List String} {a : String} (hne : l ≠ [])
    (hall : ∀ x ∈ l, x = a) : l.headI = a := by
  cases l with
  | nil => exact absurd rfl hne
  | cons b t => exact hall b (List.mem_cons_self b t)

/-- `candleColor` can only be one of the three colour strings. -/
lemma candleColor_cases (c : Candle) :
    candleColor c = "green" ∨ candleColor c = "red" ∨
      candleColor c = "neutral" := by
  simp only [candleColor]
  split_ifs <;> simp

/-- On a window of at least 5 candles, `detect_pattern` reduces to the
colour test on the last five. -/
lemma detect_pattern_of_ge5 (candles : List Candle) (h5 : 5 ≤ candles.length) :
    detect_pattern candles =
      if ((takeLast 5 candles).map candleColor).dedup.length = 1 ∧
          ((takeLast 5 candles).map candleColor).headI ≠ "neutral" then
        ⟨true, some ("5_" ++ ((takeLast 5 candles).map candleColor).headI),
          calculate_confidence (takeLast 5 candles)⟩
      else ⟨false, none, 0⟩ := by
  simp only [detect_pattern]
  rw [if_neg (by omega)]

lemma takeLast_five_length (candles : List Candle) (h5 : 5 ≤ candles.length) :
    (takeLast 5 candles).length = 5 := by
  simp only [takeLast, List.length_drop]
  omega

/-- C1: on any window of at least five candles, `detect_pattern` fires
exactly when the last five candle colours are all identical and not
neutral; the reported kind is `5_<colour>` for the shared colour (which is
green or red), and `get_trade_direction` maps `5_green` to `put` and
`5_red` to `call`. -/
theorem detect_pattern_spec (candles : List Candle) (h5 : 5 ≤ candles.length) :
    ((detect_pattern candles).detected = true ↔
      ∃ col, col ≠ "neutral" ∧
        (takeLast 5 candles).map candleColor = List.replicate 5 col) ∧
    (∀ col, col ≠ "neutral" →
      (takeLast 5 candles).map candleColor = List.replicate 5 col →
      (detect_pattern candles).pattern_type = some ("5_" ++ col) ∧
      (col = "green" ∨ col = "red")) ∧
    get_trade_direction "5_green" = "put" ∧
    get_trade_direction "5_red" = "call" := by
  have hlen : ((takeLast 5 candles).map candleColor).length = 5 := by
    rw [List.length_map]
    exact takeLast_five_length candles h5
  have hne : (takeLast 5 candles).map candleColor ≠ [] := by
    intro h
    rw [h] at hlen
    simp at hlen
  have hcond : (((takeLast 5 candles).map candleColor).dedup.length = 1 ∧
      ((takeLast 5 candles).map candleColor).headI ≠ "neutral") ↔
      ∃ col, col ≠ "neutral" ∧
        (takeLast 5 candles).map candleColor = List.replicate 5 col := by
    constructor
    · rintro ⟨hd, hh⟩
      obtain ⟨a, -, hall⟩ := dedup_length_one_iff.mp hd
      have hha : ((takeLast 5 candles).map candleColor).headI = a :=
        headI_of_all_eq hne hall
      refine ⟨a, by rw [← hha]; exact hh, ?_⟩
      have := List.eq_replicate_length.mpr hall
      rwa [hlen] at this
    · rintro ⟨col, hcol, hrep⟩
      have hall : ∀ x ∈ (takeLast 5 candles).map candleColor, x = col := by
        intro x hx
        rw [hrep] at hx
        exact (List.eq_of_mem_replicate hx)
      refine ⟨dedup_length_one_iff.mpr ⟨col, hne, hall⟩, ?_⟩
      rw [headI_of_all_eq hne hall]
      exact hcol
  refine ⟨?_, ?_, rfl, rfl⟩
  · rw [detect_pattern_of_ge5 candles h5]
    split_ifs with hc
    · simpa using hcond.mp hc
    · constructor
      · intro h
        exact absurd h (by simp)
      · intro h
        exact absurd (hcond.mpr h) hc
  · intro col hcol hrep
    have hall : ∀ x ∈ (takeLast 5 candles).map candleColor, x = col := by
      intro x hx
      rw [hrep] at hx
      exact List.eq_of_mem_replicate hx
    constructor
    · rw [detect_pattern_of_ge5 candles h5,
        if_pos (hcond.mpr ⟨col, hcol, hrep⟩)]
      simp only
      rw [headI_of_all_eq hne hall]
    · have hx : candleColor ((takeLast 5 candles).headI) = col := by
        apply hall
        apply List.mem_map_of_mem
        have : takeLast 5 candles ≠ [] := by
          intro h
          rw [h] at hne
          simp at hne
        cases htl : takeLast 5 candles with
        | nil => exact absurd htl this
        | cons b t => exact List.mem_cons_self b t
      rcases candleColor_cases ((takeLast 5 candles).headI) with h | h | h
      · left; rw [← hx, h]
      · right; rw [← hx, h]
      · exfalso
        rw [hx] at h
        exact hcol h

/-- Witness for C1 at the sample window from `strategy.py`. -/
theorem detect_pattern_spec_witness :
    ((detect_pattern sample_candles).detected = true ↔
      ∃ col, col ≠ "neutral" ∧
        (takeLast 5 sample_candles).map candleColor = List.replicate 5 col) ∧
    (∀ col, col ≠ "neutral" →
      (takeLast 5 sample_candles).map candleColor = List.replicate 5 col →
      (detect_pattern sample_candles).pattern_type = some ("5_" ++ col) ∧
      (col = "green" ∨ col = "red")) ∧
    get_trade_direction "5_green" = "put" ∧
    get_trade_direction "5_red" = "call" :=
  detect_pattern_spec sample_candles (by norm_num [sample_candles])

lemma candleConfidence_nonneg (c : Candle) : 0 ≤ candleConfidence c := by
  simp only [candleConfidence]
  split_ifs with h
  · exact le_min
      (mul_nonneg (div_nonneg (abs_nonneg _) h.le) (by norm_num))
      (by norm_num)
  · norm_num

lemma candleConfidence_le_100 (c : Candle) : candleConfidence c ≤ 100 := by
  simp only [candleConfidence]
  split_ifs with h
  · exact min_le_right _ _
  · norm_num

lemma averageConfidence_nonneg (candles : List Candle) :
    0 ≤ averageConfidence candles := by
  simp only [averageConfidence]
  apply div_nonneg _ (by positivity)
  apply List.sum_nonneg
  intro x hx
  obtain ⟨c, -, rfl⟩ := List.mem_map.mp hx
  exact candleConfidence_nonneg c

lemma averageConfidence_le_100 (candles : List Candle) (hne : candles ≠ []) :
    averageConfidence candles ≤ 100 := by
  have hlen : 0 < (candles.length : ℚ) := by
    have := List.length_pos.mpr hne
    exact_mod_cast this
  simp only [averageConfidence]
  rw [div_le_iff₀ hlen]
  have hsum := List.sum_le_card_nsmul (candles.map candleConfidence) 100
    (by
      intro x hx
      obtain ⟨c, -, rfl⟩ := List.mem_map.mp hx
      exact candleConfidence_le_100 c)
  rw [List.length_map] at hsum
  calc (candles.map candleConfidence).sum
      ≤ candles.length • (100 : ℚ) := hsum
    _ = 100 * candles.length := by rw [nsmul_eq_mul]; ring

/-- C7: on a non-empty window, `_calculate_confidence` returns a value in
[0, 100]; and when every candle of the window has `high = low`, every
per-candle score defaults to 50, so the average before the boost is 50. -/
theorem calculate_confidence_spec (candles : List Candle)
    (hne : candles ≠ []) :
    (0 ≤ calculate_confidence candles ∧ calculate_confidence candles ≤ 100) ∧
    ((∀ c ∈ candles, c.high = c.low) →
      (∀ c ∈ candles, candleConfidence c = 50) ∧
      averageConfidence candles = 50) := by
  constructor
  · have havg0 := averageConfidence_nonneg candles
    have havg100 := averageConfidence_le_100 candles hne
    simp only [calculate_confidence]
    rw [if_neg hne]
    have hb0 : 0 ≤ (if averageConfidence candles > 70 then
        min (averageConfidence candles * (11/10)) 100
      else averageConfidence candles) := by
      split_ifs with h
      · exact le_min (by linarith) (by norm_num)
      · exact havg0
    have hb100 : (if averageConfidence candles > 70 then
        min (averageConfidence candles * (11/10)) 100
      else averageConfidence candles) ≤ 100 := by
      split_ifs with h
      · exact min_le_right _ _
      · exact havg100
    refine ⟨pyRound_nonneg hb0 1, ?_⟩
    have := pyRound_le (m := 100) (by exact_mod_cast hb100) 1
    exact_mod_cast this
  · intro hflat
    have hper : ∀ c ∈ candles, candleConfidence c = 50 := by
      intro c hc
      simp only [candleConfidence]
      rw [if_neg (by rw [hflat c hc]; simp)]
    refine ⟨hper, ?_⟩
    have hmap : candles.map candleConfidence =
        List.replicate candles.length (50 : ℚ) := by
      have : (candles.map candleConfidence).length = candles.length :=
        List.length_map _ _
      rw [← this]
      apply List.eq_replicate_length.mpr
      intro b hb
      obtain ⟨c, hc, rfl⟩ := List.mem_map.mp hb
      exact hper c hc
    have hlen : (candles.length : ℚ) ≠ 0 := by
      have := List.length_pos.mpr hne
      positivity
    simp only [averageConfidence, hmap, List.sum_replicate, nsmul_eq_mul]
    field_simp

/-- Witness for C7 on a single flat (high = low) candle. -/
theorem calculate_confidence_spec_witness :
    ((0 ≤ calculate_confidence [flatCandle 0 1] ∧
      calculate_confidence [flatCandle 0 1] ≤ 100) ∧
    ((∀ c ∈ [flatCandle 0 1], c.high = c.low) →
      (∀ c ∈ [flatCandle 0 1], candleConfidence c = 50) ∧
      averageConfidence [flatCandle 0 1] = 50)) ∧
    (∀ c ∈ [flatCandle 0 1], c.high = c.low) :=
  ⟨calculate_confidence_spec [flatCandle 0 1] (by simp),
    by intro c hc; simp at hc; rw [hc]; rfl⟩

/-- Raising the gate can only skip iterations: the running trade count at
the higher threshold stays below the count at the lower one. -/
lemma bwcStep_foldl_count_le (candles : List Candle) {t1 t2 : ℚ}
    (h : t1 ≤ t2) :
    ∀ (l : List ℕ) (acc1 acc2 : ℕ × ℕ), acc2.1 ≤ acc1.1 →
      (l.foldl (bwcStep candles t2) acc2).1 ≤
        (l.foldl (bwcStep candles t1) acc1).1 := by
  intro l
  induction l with
  | nil =>
    intro acc1 acc2 hacc
    simpa using hacc
  | cons i rest ih =>
    intro acc1 acc2 hacc
    simp only [List.foldl_cons]
    apply ih
    simp only [bwcStep]
    by_cases hg2 : (detect_pattern (takeLast 5 (candles.take (i + 1)))).detected
        = true ∧
        (detect_pattern (takeLast 5 (candles.take (i + 1)))).pattern_type.getD ""
          ≠ "" ∧
        t2 ≤ (detect_pattern (takeLast 5 (candles.take (i + 1)))).confidence
    · have hg1 : (detect_pattern (takeLast 5 (candles.take (i + 1)))).detected
          = true ∧
          (detect_pattern
            (takeLast 5 (candles.take (i + 1)))).pattern_type.getD "" ≠ "" ∧
          t1 ≤ (detect_pattern (takeLast 5 (candles.take (i + 1)))).confidence :=
        ⟨hg2.1, hg2.2.1, le_trans h hg2.2.2⟩
      rw [if_pos hg2, if_pos hg1]
      simpa using hacc
    · rw [if_neg hg2]
      split_ifs <;>
        first
          | exact hacc
          | (show acc2.1 ≤ acc1.1 + 1; omega)

/-- C5: for any candle series, a higher confidence threshold never counts
more trades in `_backtest_with_confidence` than a lower one. -/
theorem backtest_with_confidence_trades_antitone (candles : List Candle)
    (t1 t2 : ℚ) (h : t1 ≤ t2) :
    (backtest_with_confidence candles t2).total_trades ≤
      (backtest_with_confidence candles t1).total_trades := by
  simp only [backtest_with_confidence]
  exact bwcStep_foldl_count_le candles h _ (0, 0) (0, 0) le_rfl

/-- Witness for C5 at thresholds 50 and 60 on the reversal series. -/
theorem backtest_with_confidence_trades_antitone_witness :
    (50 : ℚ) ≤ 60 ∧
    (backtest_with_confidence reversal_candles 60).total_trades ≤
      (backtest_with_confidence reversal_candles 50).total_trades :=
  ⟨by norm_num,
    backtest_with_confidence_trades_antitone reversal_candles 50 60
      (by norm_num)⟩

/-- `calculate_confidence` never reads the volume field. -/
lemma calculate_confidence_volume_invariant (candles : List Candle) (v : ℤ) :
    calculate_confidence (candles.map fun c => { c with volume := v }) =
      calculate_confidence candles := by
  simp only [calculate_confidence]
  have hcomp : (candleConfidence ∘ fun c : Candle => { c with volume := v }) =
      candleConfidence := by
    funext c
    rfl
  have hmap : (candles.map fun c : Candle => { c with volume := v }).map
      candleConfidence = candles.map candleConfidence := by
    rw [List.map_map, hcomp]
  have hlen : (candles.map fun c : Candle => { c with volume := v }).length =
      candles.length := List.length_map _ _
  by_cases hne : candles = []
  · subst hne
    simp
  · rw [if_neg hne, if_neg (by simpa using hne)]
    simp only [averageConfidence, hmap, hlen]

/-- Counterexample for C9: a window of five candles, each with high < low,
is not rejected: `detect_pattern` returns an ordinary detected pattern
(the inverted range means a non-positive wick, so each per-candle score
takes the degenerate default 50). -/
theorem detect_pattern_malformed_normal_result :
    (∀ c ∈ malformed_window, c.high < c.low) ∧
    detect_pattern malformed_window =
      ⟨true, some "5_green", 50⟩ := by
  constructor
  · intro c hc
    simp only [malformed_window, List.mem_cons, List.mem_singleton] at hc
    rcases hc with rfl | rfl | rfl | rfl | rfl | h
    all_goals norm_num
    simp at h
  · norm_num [detect_pattern, malformed_window, takeLast, candleColor,
      calculate_confidence, averageConfidence, candleConfidence,
      pyRound, roundHalfEven, List.dedup_cons_of_mem,
      List.dedup_cons_of_not_mem, min_def, abs_ite]
    try simp
    try norm_num

/-- C9 (amended): the core does not validate candles. A candle with
high ≤ low lands in the zero-wick default branch (per-candle confidence
50) instead of raising, and pattern detection is invariant under any
change of the volume field, so a negative volume cannot be noticed. -/
theorem malformed_candles_not_rejected :
    (∀ c : Candle, c.high ≤ c.low → candleConfidence c = 50) ∧
    (∀ (candles : List Candle) (v : ℤ),
      detect_pattern (candles.map fun c => { c with volume := v }) =
        detect_pattern candles) := by
  constructor
  · intro c h
    simp only [candleConfidence]
    rw [if_neg (by linarith)]
  · intro candles v
    simp only [detect_pattern]
    have hlen : (candles.map fun c : Candle => { c with volume := v }).length =
        candles.length := List.length_map _ _
    have htake : takeLast 5 (candles.map fun c : Candle =>
        { c with volume := v }) = (takeLast 5 candles).map fun c =>
        { c with volume := v } := by
      simp only [takeLast, hlen, ← List.map_drop]
    have hcolor : (candleColor ∘ fun c : Candle => { c with volume := v }) =
        candleColor := by
      funext c
      rfl
    have hcolors : ((takeLast 5 (candles.map fun c : Candle =>
        { c with volume := v })).map candleColor) =
        (takeLast 5 candles).map candleColor := by
      rw [htake, List.map_map, hcolor]
    have hconf : calculate_confidence (takeLast 5 (candles.map fun c : Candle =>
        { c with volume := v })) = calculate_confidence (takeLast 5 candles) := by
      rw [htake, calculate_confidence_volume_invariant]
    rw [hlen, hcolors, hconf]

/-- Witness for C9's amended statement at a concrete malformed candle. -/
theorem malformed_candles_not_rejected_witness :
    ((⟨0, 1, 0, 3, 2, -1⟩ : Candle).high ≤ (⟨0, 1, 0, 3, 2, -1⟩ : Candle).low)
      ∧ candleConfidence ⟨0, 1, 0, 3, 2, -1⟩ = 50 :=
  ⟨by norm_num,
    malformed_candles_not_rejected.1 ⟨0, 1, 0, 3, 2, -1⟩ (by norm_num)⟩

/-- Counterexample for C8: on the 21-candle step series the code's
strength (measured against `close.iloc[-20]`, i.e. the close 19 positions
before the last) is 50, while the claim's formula (measured against the
close 20 positions before the last) gives 100. -/
theorem analyze_strength_not_20_before :
    (analyze_market_condition step_candles).strength = 50 ∧
    pyRound (min (|(step_candles.map Candle.close).getD
          (step_candles.length - 1) 0 -
        (step_candles.map Candle.close).getD
          (step_candles.length - 1 - 20) 0| /
      (step_candles.map Candle.close).getD
        (step_candles.length - 1 - 20) 0 * 100) 100) 1 = 100 ∧
    (50 : ℚ) ≠ 100 := by
  refine ⟨?_, ?_, by norm_num⟩
  · norm_num [analyze_market_condition, step_candles, flatCandle, takeLast,
      mean, trueRanges, pyRound, roundHalfEven, min_def, abs_ite]
    try simp
    try norm_num
  · norm_num [step_candles, flatCandle, pyRound, roundHalfEven, min_def,
      abs_ite]

/-- C8 (amended): for a window of at least 20 candles whose reference close
is positive, the strength field equals the capped, 1-decimal-rounded
percentage change of the last close against the close 19 positions before
it (`close.iloc[-20]`, index `length - 20`). -/
theorem analyze_strength_amended (candles : List Candle)
    (h20 : 20 ≤ candles.length)
    (hpos : 0 < (candles.map Candle.close).getD (candles.length - 20) 0) :
    (analyze_market_condition candles).strength =
      pyRound (min (|(candles.map Candle.close).getD (candles.length - 1) 0 -
          (candles.map Candle.close).getD (candles.length - 20) 0| /
        (candles.map Candle.close).getD (candles.length - 20) 0 * 100)
        100) 1 := by
  simp only [analyze_market_condition]
  rw [if_neg (by omega)]
  simp only [List.length_map]
  congr 2
  rw [abs_div, abs_of_pos hpos]

/-- Witness for C8's amended statement on the step series. -/
theorem analyze_strength_amended_witness :
    20 ≤ step_candles.length ∧
    (analyze_market_condition step_candles).strength =
      pyRound (min (|(step_candles.map Candle.close).getD
          (step_candles.length - 1) 0 -
          (step_candles.map Candle.close).getD (step_candles.length - 20) 0| /
        (step_candles.map Candle.close).getD (step_candles.length - 20) 0 *
          100) 100) 1 :=
  ⟨by norm_num [step_candles, flatCandle],
    analyze_strength_amended step_candles
      (by norm_num [step_candles, flatCandle])
      (by norm_num [step_candles, flatCandle])⟩

/-- Characterization of the threshold sweep: if no candidate beats the
incumbent score, the state is unchanged; if some candidate does, the sweep
selects the first candidate achieving the maximum win rate. -/
lemma optimizeStep_foldl_char (candles : List Candle) (l : List ℚ) :
    ∀ (b : ℚ) (p : Option OptParams),
      ((∀ t ∈ l, (backtest_with_confidence candles t).win_rate ≤ b) →
        l.foldl (optimizeStep candles) (b, p) = (b, p)) ∧
      (∀ t0 ∈ l, b < (backtest_with_confidence candles t0).win_rate →
        ∃ l₁ t l₂, l = l₁ ++ t :: l₂ ∧
          (l.foldl (optimizeStep candles) (b, p)).2 =
            some ⟨t, (backtest_with_confidence candles t).win_rate,
              (backtest_with_confidence candles t).total_trades⟩ ∧
          b < (backtest_with_confidence candles t).win_rate ∧
          (∀ u ∈ l, (backtest_with_confidence candles u).win_rate ≤
            (backtest_with_confidence candles t).win_rate) ∧
          (∀ u ∈ l₁, (backtest_with_confidence candles u).win_rate <
            (backtest_with_confidence candles t).win_rate)) := by
  induction l with
  | nil =>
    intro b p
    exact ⟨fun _ => rfl, fun t0 ht0 => absurd ht0 (List.not_mem_nil t0)⟩
  | cons a rest ih =>
    intro b p
    constructor
    · intro hall
      simp only [List.foldl_cons]
      have ha : (backtest_with_confidence candles a).win_rate ≤ b :=
        hall a (List.mem_cons_self a rest)
      have hstep : optimizeStep candles (b, p) a = (b, p) := by
        simp only [optimizeStep]
        rw [if_neg (not_lt.mpr ha)]
      rw [hstep]
      exact (ih b p).1 (fun t ht => hall t (List.mem_cons_of_mem a ht))
    · intro t0 ht0 hb
      simp only [List.foldl_cons]
      by_cases hba : b < (backtest_with_confidence candles a).win_rate
      · have hstep : optimizeStep candles (b, p) a =
            ((backtest_with_confidence candles a).win_rate,
              some ⟨a, (backtest_with_confidence candles a).win_rate,
                (backtest_with_confidence candles a).total_trades⟩) := by
          simp only [optimizeStep]
          rw [if_pos hba]
        rw [hstep]
        by_cases hrest : ∀ u ∈ rest,
            (backtest_with_confidence candles u).win_rate ≤
              (backtest_with_confidence candles a).win_rate
        · rw [(ih _ _).1 hrest]
          refine ⟨[], a, rest, rfl, rfl, hba, ?_,
            fun u hu => absurd hu (List.not_mem_nil u)⟩
          intro u hu
          rcases List.mem_cons.mp hu with rfl | hu'
          · exact le_rfl
          · exact hrest u hu'
        · push_neg at hrest
          obtain ⟨u0, hu0, hu0l⟩ := hrest
          obtain ⟨l₁, t, l₂, hsplit, hres, hbt, hmax, hfirst⟩ :=
            (ih _ _).2 u0 hu0 hu0l
          refine ⟨a :: l₁, t, l₂, by rw [hsplit]; rfl, hres,
            lt_trans hba hbt, ?_, ?_⟩
          · intro u hu
            rcases List.mem_cons.mp hu with rfl | hu'
            · exact hbt.le
            · exact hmax u hu'
          · intro u hu
            rcases List.mem_cons.mp hu with rfl | hu'
            · exact hbt
            · exact hfirst u hu'
      · have hstep : optimizeStep candles (b, p) a = (b, p) := by
          simp only [optimizeStep]
          rw [if_neg hba]
        rw [hstep]
        have ht0' : t0 ∈ rest := by
          rcases List.mem_cons.mp ht0 with rfl | h
          · exact absurd hb hba
          · exact h
        obtain ⟨l₁, t, l₂, hsplit, hres, hbt, hmax, hfirst⟩ :=
          (ih b p).2 t0 ht0' hb
        have hat : (backtest_with_confidence candles a).win_rate <
            (backtest_with_confidence candles t).win_rate :=
          lt_of_le_of_lt (not_lt.mp hba) hbt
        refine ⟨a :: l₁, t, l₂, by rw [hsplit]; rfl, hres, hbt, ?_, ?_⟩
        · intro u hu
          rcases List.mem_cons.mp hu with rfl | hu'
          · exact hat.le
          · exact hmax u hu'
        · intro u hu
          rcases List.mem_cons.mp hu with rfl | hu'
          · exact hat
          · exact hfirst u hu'

/-- Counterexample for C4: on an empty series every candidate's win rate
is 0, no candidate strictly beats the initial `best_performance = 0.0`,
and `optimize_parameters` returns the still-empty `best_params`: nothing
is returned. -/
theorem optimize_parameters_empty_returns_nothing :
    optimize_parameters [] = none := by
  norm_num [optimize_parameters, confidence_thresholds, optimizeStep,
    backtest_with_confidence, bwcStep, pyRound, roundHalfEven]

/-- C4 (amended): whenever some candidate threshold achieves a positive
win rate, `optimize_parameters` returns the stats of the candidate with
the highest win rate, and among ties the lowest threshold; when no
candidate has a positive win rate the empty `best_params` is returned
(see the counterexample). -/
theorem optimize_parameters_first_argmax (candles : List Candle)
    (h : ∃ t0 ∈ confidence_thresholds,
      0 < (backtest_with_confidence candles t0).win_rate) :
    ∃ t ∈ confidence_thresholds,
      optimize_parameters candles =
        some ⟨t, (backtest_with_confidence candles t).win_rate,
          (backtest_with_confidence candles t).total_trades⟩ ∧
      (∀ u ∈ confidence_thresholds,
        (backtest_with_confidence candles u).win_rate ≤
          (backtest_with_confidence candles t).win_rate) ∧
      (∀ u ∈ confidence_thresholds,
        (backtest_with_confidence candles u).win_rate =
          (backtest_with_confidence candles t).win_rate → t ≤ u) := by
  obtain ⟨t0, ht0, hpos⟩ := h
  obtain ⟨l₁, t, l₂, hsplit, hres, hbt, hmax, hfirst⟩ :=
    (optimizeStep_foldl_char candles confidence_thresholds 0 none).2 t0 ht0 hpos
  refine ⟨t, by rw [hsplit]; simp, hres, hmax, ?_⟩
  intro u hu hequ
  have hpw : List.Pairwise (· ≤ ·) confidence_thresholds := by
    norm_num [confidence_thresholds]
  rw [hsplit] at hu hpw
  rcases List.mem_append.mp hu with h1 | h2
  · exact absurd hequ (ne_of_lt (hfirst u h1))
  · have hpc : List.Pairwise (· ≤ ·) (t :: l₂) :=
      (List.pairwise_append.mp hpw).2.1
    rcases List.mem_cons.mp h2 with rfl | h3
    · exact le_rfl
    · exact (List.pairwise_cons.mp hpc).1 u h3

/-- Winning stats for the witness series at threshold 50. -/
lemma bwc_reversal_50 : backtest_with_confidence reversal_candles 50 =
    ⟨1, 1, 100⟩ := by
  norm_num [backtest_with_confidence, bwcStep, reversal_candles,
    detect_pattern, takeLast, candleColor, calculate_confidence,
    averageConfidence, candleConfidence, pyRound, roundHalfEven,
    List.dedup_cons_of_mem, List.dedup_cons_of_not_mem, min_def, abs_ite,
    List.range', get_trade_direction]
  try simp
  try norm_num

/-- Witness for C4's amended statement on the reversal series. -/
theorem optimize_parameters_first_argmax_witness :
    ∃ t ∈ confidence_thresholds,
      optimize_parameters reversal_candles =
        some ⟨t, (backtest_with_confidence reversal_candles t).win_rate,
          (backtest_with_confidence reversal_candles t).total_trades⟩ ∧
      (∀ u ∈ confidence_thresholds,
        (backtest_with_confidence reversal_candles u).win_rate ≤
          (backtest_with_confidence reversal_candles t).win_rate) ∧
      (∀ u ∈ confidence_thresholds,
        (backtest_with_confidence reversal_candles u).win_rate =
          (backtest_with_confidence reversal_candles t).win_rate → t ≤ u) :=
  optimize_parameters_first_argmax reversal_candles
    ⟨50, by norm_num [confidence_thresholds],
      by rw [bwc_reversal_50]; norm_num⟩

/-- One backtest step preserves the walk invariant: the loss branch only
fires when the balance covers the stake, the peak is updated to the
running maximum, and each drawdown sample `(peak - balance)/peak` is a
fraction in [0, 1]. -/
lemma backtestStep_inv (tc : List Candle) (st : BTState) (i : ℕ)
    (h : BTInv st) : BTInv (backtestStep tc st i) := by
  obtain ⟨h1, h2, h3, h4, h5⟩ := h
  simp only [backtestStep, BTInv]
  split_ifs <;> (try dsimp only) <;>
    first
      | exact ⟨h1, h2, h3, h4, h5⟩
      | (refine ⟨?_, ?_, ?_, ?_, ?_⟩ <;>
          first
            | linarith
            | (apply div_nonneg <;> linarith)
            | (rw [div_le_one (by linarith)]; linarith))

/-- The walk invariant holds after any sequence of backtest steps. -/
lemma backtestStep_foldl_inv (tc : List Candle) (l : List ℕ) (st : BTState)
    (h : BTInv st) : BTInv (l.foldl (backtestStep tc) st) := by
  induction l generalizing st with
  | nil => exact h
  | cons i rest ih =>
    simp only [List.foldl_cons]
    exact ih _ (backtestStep_inv tc st i h)

lemma win_rate_bounds (W T : ℕ) (h : W ≤ T) :
    0 ≤ pyRound (if 0 < T then (W : ℚ) / T * 100 else 0) 2 ∧
      pyRound (if 0 < T then (W : ℚ) / T * 100 else 0) 2 ≤ 100 := by
  have h0 : (0 : ℚ) ≤ (if 0 < T then (W : ℚ) / T * 100 else 0) := by
    split_ifs with ht
    · positivity
    · exact le_rfl
  have h100 : (if 0 < T then (W : ℚ) / T * 100 else 0) ≤ 100 := by
    split_ifs with ht
    · have hT : (0 : ℚ) < T := by exact_mod_cast ht
      rw [div_mul_eq_mul_div, div_le_iff₀ hT]
      have hWT : (W : ℚ) ≤ T := by exact_mod_cast h
      linarith
    · norm_num
  refine ⟨pyRound_nonneg h0 2, ?_⟩
  have := pyRound_le (m := 100) (by exact_mod_cast h100) 2
  exact_mod_cast this

lemma dd_bounds (d : ℚ) (h0 : 0 ≤ d) (h1 : d ≤ 1) :
    0 ≤ pyRound (d * 100) 2 ∧ pyRound (d * 100) 2 ≤ 100 := by
  refine ⟨pyRound_nonneg (by linarith) 2, ?_⟩
  have := pyRound_le (q := d * 100) (m := 100) (by push_cast; linarith) 2
  exact_mod_cast this

/-- C2: every backtest result satisfies
`winning_trades + losing_trades = total_trades`, a win rate in [0, 100],
and a maximum drawdown in [0, 100]. -/
theorem run_backtest_invariants (candles : List Candle)
    (lookback_period : ℕ) :
    (run_backtest candles lookback_period).winning_trades +
        (run_backtest candles lookback_period).losing_trades =
      (run_backtest candles lookback_period).total_trades ∧
    (0 ≤ (run_backtest candles lookback_period).win_rate ∧
      (run_backtest candles lookback_period).win_rate ≤ 100) ∧
    (0 ≤ (run_backtest candles lookback_period).max_drawdown ∧
      (run_backtest candles lookback_period).max_drawdown ≤ 100) := by
  by_cases hshort : candles.length < lookback_period
  · simp only [run_backtest]
    rw [if_pos hshort]
    norm_num
  · simp only [run_backtest]
    rw [if_neg hshort]
    have hinv := backtestStep_foldl_inv (takeLast lookback_period candles)
      (List.range' 5 ((takeLast lookback_period candles).length - 5))
      ⟨10000, 10000, 0, []⟩ (by refine ⟨?_, ?_, ?_, ?_, ?_⟩ <;> norm_num)
    obtain ⟨hb0, hbp, hp0, hd0, hd1⟩ := hinv
    have hfle := List.length_filter_le (fun t : TradeRecord => t.win)
      ((List.range' 5 ((takeLast lookback_period candles).length - 5)).foldl
        (backtestStep (takeLast lookback_period candles))
        ⟨10000, 10000, 0, []⟩).trades
    refine ⟨?_, ?_, ?_⟩
    · dsimp only
      omega
    · dsimp only
      exact win_rate_bounds _ _ hfle
    · dsimp only
      exact dd_bounds _ hd0 hd1

/-- Counterexample for C3: the degenerate early return of `run_backtest`
is a dict without the `final_balance` key. -/
theorem run_backtest_degenerate_missing_final_balance :
    ([] : List Candle).length < 100 ∧
    (run_backtest [] 100).final_balance = none := by
  exact ⟨by norm_num, rfl⟩

/-- C3 (amended): on a series shorter than the lookback, `run_backtest`
returns the zeroed degenerate result — all counts 0, win rate,
profit/loss, max drawdown and Sharpe all 0, empty details — but with no
`final_balance` field (the early-return dict omits that key). -/
theorem run_backtest_short_series_zeroed (candles : List Candle)
    (lookback_period : ℕ) (h : candles.length < lookback_period) :
    run_backtest candles lookback_period =
      { total_trades := 0, winning_trades := 0, losing_trades := 0,
        win_rate := 0, profit_loss := 0, max_drawdown := 0,
        sharpe := Sharpe.zero, final_balance := none, details := [] } := by
  simp only [run_backtest]
  rw [if_pos h]

/-- Witness for C3's amended statement on the empty series. -/
theorem run_backtest_short_series_zeroed_witness :
    ([] : List Candle).length < 100 ∧
    run_backtest [] 100 =
      { total_trades := 0, winning_trades := 0, losing_trades := 0,
        win_rate := 0, profit_loss := 0, max_drawdown := 0,
        sharpe := Sharpe.zero, final_balance := none, details := [] } :=
  ⟨by norm_num, run_backtest_short_series_zeroed [] 100 (by norm_num)⟩

/-- C10: a qualifying signal is simulated only when the running balance
covers the fixed 50.0 stake — with a lower balance the step leaves the
state (and the trade list) untouched — and consequently the running
balance is non-negative at every prefix of the backtest walk. -/
theorem run_backtest_balance_safety :
    (∀ (test_candles : List Candle) (st : BTState) (i : ℕ),
      st.balance < 50 → backtestStep test_candles st i = st) ∧
    (∀ (candles : List Candle) (lookback_period : ℕ) (l₁ l₂ : List ℕ),
      List.range' 5 ((takeLast lookback_period candles).length - 5) =
        l₁ ++ l₂ →
      0 ≤ (l₁.foldl (backtestStep (takeLast lookback_period candles))
        ⟨10000, 10000, 0, []⟩).balance) := by
  constructor
  · intro tc st i hlt
    simp only [backtestStep]
    split_ifs <;> first | rfl | linarith
  · intro candles lookback_period l₁ l₂ hsplit
    have hinv := backtestStep_foldl_inv (takeLast lookback_period candles) l₁
      ⟨10000, 10000, 0, []⟩ (by refine ⟨?_, ?_, ?_, ?_, ?_⟩ <;> norm_num)
    exact hinv.1

/-- Witness for C10: a state with balance 40 is left unchanged, and the
two-step walk on the reversal series keeps a non-negative balance. -/
theorem run_backtest_balance_safety_witness :
    ((⟨40, 10000, 0, []⟩ : BTState).balance < 50 ∧
      backtestStep [] ⟨40, 10000, 0, []⟩ 0 = ⟨40, 10000, 0, []⟩) ∧
    (List.range' 5 ((takeLast 7 reversal_candles).length - 5) = [5] ++ [6] ∧
      0 ≤ (([5] : List ℕ).foldl
        (backtestStep (takeLast 7 reversal_candles))
        ⟨10000, 10000, 0, []⟩).balance) :=
  ⟨⟨by norm_num, run_backtest_balance_safety.1 [] ⟨40, 10000, 0, []⟩ 0
      (by norm_num)⟩,
    ⟨by norm_num [takeLast, reversal_candles, List.range'],
      run_backtest_balance_safety.2 reversal_candles 7 [5] [6]
        (by norm_num [takeLast, reversal_candles, List.range'])⟩⟩

end QX
